import Mathlib

/-!
Verification of the snowclaw collective-memory specification against the
repository sources.

The repository sources under verification are:
 * the shared memory-crate interface (Memory, SourcePreference, SearchResult,
   rank_memories, detect_conflicts) — declared in the snow-ui design document;
   the Rust implementation is not part of the source tree, so those operations
   are modelled from the specification (section 3, 4.4, 4.5), as marked on
   each definition;
 * ui/src/relay.ts — relay connection management (connect, disconnect,
   subscribeMemoryEvents, unsubscribe) modelled as explicit state passing and
   as a small-step machine for the concurrent-connect analysis;
 * ui/src/debug-console.ts — escapeHtml, renderTags, formatEvent, the event
   log handler and the event-inspector handler.

Numbers are embedded as Nat / Int, scores (f32 in the interface) as ℚ,
JavaScript strings as String / List Char, fields that may be absent at
runtime as Option, and code that can throw as Option / Except results.
-/

namespace Snow

/-! ## Record model (shared memory crate interface) -/

/-- Visibility tier of a memory record: Public, Group(groupId) or
Private(ownerId).  From the design document's MemoryTier enum. -/
inductive MemoryTier where
  | Public : MemoryTier
  | Group : String → MemoryTier
  | Private : String → MemoryTier
deriving DecidableEq, Repr

/-- Durable memory record.  Fields follow the Memory struct of the shared
memory crate: identifiers and free-form payloads as String, confidence as ℚ
(f32 in the interface), created_at as Int (timestamp). -/
structure Memory where
  id : String
  tier : MemoryTier
  topic : String
  summary : String
  detail : String
  source : String
  model : String
  confidence : ℚ
  supersedes : Option String
  tags : List String
  created_at : Int
deriving DecidableEq, Repr

/-- One entry of the ordered source-preference list: an identity or a group,
with a trust weight. -/
structure SourcePreference where
  npub : Option String
  group : Option String
  trust : ℚ
deriving DecidableEq, Repr

/-- One search result: a memory together with its ranking components.  From
the SearchResult struct of the shared memory crate (model_tier widened from
u8 to Nat to accommodate the explicit unranked tier). -/
structure SearchResult where
  memory : Memory
  relevance : ℚ
  effective_score : ℚ
  source_rank : Nat
  model_tier : Nat
deriving DecidableEq, Repr

/-! ## Trust lookup, model tiers and ranking (modelled from the spec) -/

/-- First entry of a list satisfying a predicate, together with its index. -/
def firstMatch (pred : SourcePreference → Bool) :
    List SourcePreference → Option (Nat × SourcePreference)
  | [] => none
  | p :: ps =>
      if pred p then some (0, p)
      else (firstMatch pred ps).map (fun ip => (ip.1 + 1, ip.2))

/-- Group id carried by a tier, if any. -/
def groupOfTier : MemoryTier → Option String
  | .Group g => some g
  | _ => none

/-- Modelled from the spec: position and trust weight of the first matching
entry in the SourcePreference list for the item's source, or its group if the
source is unmatched but the item's tier is a matched group (section 4.4
step 1).  The Rust implementation of this lookup is not in the source tree. -/
def lookupSource (prefs : List SourcePreference) (m : Memory) : Option (Nat × ℚ) :=
  match firstMatch (fun p => p.npub == some m.source) prefs with
  | some ip => some (ip.1, ip.2.trust)
  | none =>
      match groupOfTier m.tier with
      | some g => (firstMatch (fun p => p.group == some g) prefs).map (fun ip => (ip.1, ip.2.trust))
      | none => none

/-- Modelled from the spec: trust weight of a memory's source; an unmatched
source receives the default weight 0 (section 3, SourcePreference). -/
def trustWeightOf (prefs : List SourcePreference) (m : Memory) : ℚ :=
  match lookupSource prefs m with
  | some ip => ip.2
  | none => 0

/-- Modelled from the spec: rank of a memory's source in the preference list;
an unmatched source receives the unranked position prefs.length, which sorts
after every matched index (section 4.4 tie-break 1). -/
def sourceRankOf (prefs : List SourcePreference) (m : Memory) : Nat :=
  match lookupSource prefs m with
  | some ip => ip.1
  | none => prefs.length

/-- Modelled from the spec: model-name pattern matching, exact or
trailing-wildcard prefix (section 3, ModelTierTable and design note). -/
def patternMatches (pat model : String) : Bool :=
  if pat.endsWith "*" then model.startsWith (pat.dropRight 1) else pat == model

/-- Largest tier number defined by a model-tier table. -/
def definedTiersMax (table : List (String × Nat)) : Nat :=
  (table.map Prod.snd).foldr max 0

/-- Modelled from the spec: tier of a producing model under a model-tier
table; an unmatched model falls into the explicit unranked tier below (that
is, numerically above) the lowest defined tier (section 3, ModelTierTable). -/
def modelTierOf (table : List (String × Nat)) (model : String) : Nat :=
  match table.find? (fun e => patternMatches e.1 model) with
  | some e => e.2
  | none => definedTiersMax table + 1

/-- Modelled from the spec: recompute the ranking components of one search
result from the preference list and tier table (section 4.4 steps 1-2). -/
def scoreResult (prefs : List SourcePreference) (table : List (String × Nat))
    (r : SearchResult) : SearchResult :=
  { r with
    effective_score := r.relevance * trustWeightOf prefs r.memory
    source_rank := sourceRankOf prefs r.memory
    model_tier := modelTierOf table r.memory.model }

/-- Lexicographic sort key of a result: effectiveScore descending, then
sourceRank ascending, then modelTier ascending, then createdAt descending.
Descending components are encoded by negation. -/
def rankKey (a : SearchResult) : ℚ ×ₗ (ℕ ×ₗ (ℕ ×ₗ ℤ)) :=
  toLex (-a.effective_score,
    toLex (a.source_rank, toLex (a.model_tier, -a.memory.created_at)))

/-- Total comparison used to order search results (section 4.4 steps 3-6). -/
def rankLE (a b : SearchResult) : Bool :=
  decide (rankKey a ≤ rankKey b)

/-- Modelled from the spec: the ranking function rank_memories declared by
the shared memory crate (its Rust implementation is not in the source tree).
Each result's components are recomputed from the preference list and tier
table, then the results are sorted by the deterministic total order of
section 4.4.  The tier table argument makes explicit the ModelTierTable that
the declared interface reads from configuration. -/
def rank_memories (results : List SearchResult) (prefs : List SourcePreference)
    (table : List (String × Nat)) : List SearchResult :=
  (results.map (scoreResult prefs table)).mergeSort rankLE

/-! ## Conflict detection (modelled from the spec) -/

/-- All records of a collection on one exact topic. -/
def topicGroup (ms : List Memory) (t : String) : List Memory :=
  ms.filter (fun m => m.topic == t)

/-- Modelled from the spec: a group is a conflict when two records from
distinct sources have non-identical detail after normalization
(section 4.5). -/
def hasConflict (normalize : String → String) (g : List Memory) : Bool :=
  g.any (fun a => g.any (fun b =>
    (a.source != b.source) && (normalize a.detail != normalize b.detail)))

/-- Modelled from the spec: detect_conflicts declared by the shared memory
crate (its Rust implementation is not in the source tree).  Current-version
records are grouped by exact topic match and the conflicting groups are
returned (section 4.5).  The normalization applied to detail payloads is an
external collaborator and is passed as a parameter. -/
def detect_conflicts (normalize : String → String) (ms : List Memory) :
    List (List Memory) :=
  (((ms.map (fun m => m.topic)).dedup).filter
      (fun t => hasConflict normalize (topicGroup ms t))).map (topicGroup ms)

/-! ## Nostr events as seen by the UI

A value parsed from JSON and used as an event may lack any field at runtime,
so every scalar field is an Option; none models the JavaScript undefined. -/

/-- Runtime shape of a value used as a Nostr event by the UI code. -/
structure NostrEvent where
  id : Option String
  pubkey : Option String
  kind : Option Int
  created_at : Option Int
  tags : Option (List (List String))
  content : Option String
deriving DecidableEq, Repr

/-- Required-field check: an event missing id, pubkey, kind, created_at,
tags or content is malformed. -/
def isMalformed (e : NostrEvent) : Bool :=
  e.id.isNone || e.pubkey.isNone || e.kind.isNone || e.created_at.isNone ||
  e.tags.isNone || e.content.isNone

/-! ## escapeHtml and the HTML formatting helpers (debug-console.ts) -/

/-- Replacement of every occurrence of one character by a string, modelling
s.replace(/c/g, rep) for a single-character pattern. -/
def replaceAllC (c : Char) (rep : List Char) : List Char → List Char
  | [] => []
  | x :: xs => (if x = c then rep else [x]) ++ replaceAllC c rep xs

/-- escapeHtml from debug-console.ts: replace ampersand, then the angle
brackets, then the double quote, each globally, in that source order. -/
def escapeHtml (s : List Char) : List Char :=
  replaceAllC '"' "&quot;".data
    (replaceAllC '>' "&gt;".data
      (replaceAllC '<' "&lt;".data
        (replaceAllC '&' "&amp;".data s)))

/-- String-level wrapper of escapeHtml. -/
def escapeHtmlS (s : String) : String := String.mk (escapeHtml s.data)

/-- Character-wise view of escapeHtml, used in the proofs: the image of one
input character. -/
def escChar (x : Char) : List Char :=
  if x = '&' then "&amp;".data
  else if x = '<' then "&lt;".data
  else if x = '>' then "&gt;".data
  else if x = '"' then "&quot;".data
  else [x]

/-- Output alphabet check: true when the list holds none of the three
HTML-dangerous characters <, > and double quote. -/
def noDanger (l : List Char) : Bool :=
  l.all (fun c => (c != '<') && (c != '>') && (c != '"'))

/-- Every ampersand in the list begins one of the entities amp, lt, gt or
quot (checked by prefix on the remainder). -/
def entitiesOk : List Char → Bool
  | [] => true
  | x :: rest =>
      (if x = '&' then
        ("amp;".data.isPrefixOf rest || "lt;".data.isPrefixOf rest ||
         "gt;".data.isPrefixOf rest || "quot;".data.isPrefixOf rest)
      else true) && entitiesOk rest

/-- Separator-joined concatenation, modelling Array.prototype.join. -/
def joinSep (sep : List Char) : List (List Char) → List Char
  | [] => []
  | [x] => x
  | x :: xs => x ++ sep ++ joinSep sep xs

/-- Tag-value segment of renderTags: the escaped values of one tag joined by
a comma, from tag.map(escapeHtml).join in debug-console.ts. -/
def escapedTagValues (tag : List (List Char)) : List Char :=
  joinSep ", ".data (tag.map escapeHtml)

/-- Tag keys highlighted by the debug console (SNOW_TAG_PREFIXES). -/
def snowTagKeys : List String :=
  ["snow:tier", "snow:model", "snow:confidence", "snow:source",
   "snow:version", "snow:supersedes"]

/-- renderTags for a single tag, from debug-console.ts. -/
def renderTag (tag : List String) : String :=
  let key := tag.headD ""
  let isSnow := snowTagKeys.any (fun p => key.startsWith p) || key == "d"
  let cls := if isSnow then " class=\"snow-tag\"" else ""
  "<span" ++ cls ++ ">[" ++ String.intercalate ", " (tag.map escapeHtmlS) ++ "]</span>"

/-- renderTags from debug-console.ts: one span per tag, newline separated. -/
def renderTags (tags : List (List String)) : String :=
  String.intercalate "\n" (tags.map renderTag)

/-- Display of a possibly-absent kind field; an absent field interpolates as
the text undefined in JavaScript. -/
def showKind : Option Int → String
  | none => "undefined"
  | some k => toString k

/-- Abstraction of the JavaScript Date#toISOString call on new Date(ms);
the exact text is irrelevant to every claim, only that the call throws a
RangeError on an invalid date, which the caller models via the Option
match. -/
def dateToISO (ms : Int) : String := "date:" ++ toString ms

/-- Abstraction of the JavaScript Date#toLocaleTimeString call; on an
invalid date (absent created_at) it returns the text Invalid Date without
throwing. -/
def dateToLocaleTime : Option Int → String
  | none => "Invalid Date"
  | some ms => "time:" ++ toString ms

/-- formatEvent from debug-console.ts.  The template reads id, pubkey,
created_at (through toISOString, which throws on an invalid date), tags and
content; an absent one of those makes the call throw, modelled as error.
kind interpolates without escaping and without throwing. -/
def formatEvent (e : NostrEvent) : Except String String :=
  match e.id, e.pubkey, e.created_at, e.tags, e.content with
  | some i, some pk, some ca, some tags, some ct =>
      Except.ok ("<div>\n<strong>id:</strong> " ++ escapeHtmlS i ++
        "\n<strong>kind:</strong> " ++ showKind e.kind ++
        "\n<strong>pubkey:</strong> " ++ escapeHtmlS pk ++
        "\n<strong>created_at:</strong> " ++ toString ca ++ " (" ++
        dateToISO (ca * 1000) ++ ")\n<strong>tags:</strong>\n" ++
        renderTags tags ++ "\n<strong>content:</strong>\n" ++
        escapeHtmlS ct ++ "\n</div>")
  | _, _, _, _, _ => Except.error "TypeError"

/-! ## Subscription filter (relay.ts subscribeMemoryEvents) -/

/-- Nostr REQ filter over kind and the d tag, as built by
subscribeMemoryEvents. -/
structure NostrFilter where
  kinds : List Int
  dvals : List String
deriving DecidableEq, Repr

/-- NIP-01 filter matching: the kind must be listed and some d tag's value
must equal (exactly) one of the requested d values. -/
def matchesFilter (f : NostrFilter) (e : NostrEvent) : Bool :=
  (match e.kind with
   | some k => f.kinds.contains k
   | none => false)
  &&
  (match e.tags with
   | some tags => tags.any (fun tag =>
       (tag.headD "" == "d") && f.dvals.contains (tag.getD 1 ""))
   | none => false)

/-- The one filter subscribeMemoryEvents sends: kinds 30078 and d value
snow:memory: (relay.ts lines 87-92). -/
def memoryEventsFilter : NostrFilter :=
  { kinds := [30078], dvals := ["snow:memory:"] }

/-! ## Relay module state (relay.ts) -/

/-- Connection status values of the relay module. -/
inductive RelayStatus where
  | disconnected : RelayStatus
  | connecting : RelayStatus
  | connected : RelayStatus
deriving DecidableEq, Repr

/-- Ledger entry for one subscription ever created: the Date.now()
millisecond value that keyed it (snow-mem-<ms>), how many times close() has
been called on it, and whether it is still in the subscription map.  The
key is NOT guaranteed fresh: two subscriptions created in the same
millisecond share a key. -/
structure SubEntry where
  sid : Nat
  closes : Nat
  inMap : Bool
deriving DecidableEq, Repr

/-- State of the relay module: the module-level state object of relay.ts,
with subscriptions kept as a ledger of every subscription ever created and
a fresh-handle counter for relays. -/
structure RelayModState where
  url : String
  relay : Option Nat
  status : RelayStatus
  subs : List SubEntry
  eventCount : Nat
  nextRelay : Nat
deriving DecidableEq, Repr

/-- Initial module state of relay.ts. -/
def initRelay : RelayModState :=
  { url := "", relay := none, status := .disconnected, subs := [],
    eventCount := 0, nextRelay := 0 }

/-- connect from relay.ts, run to completion, with the success of the
network attempt passed as a parameter: the tracked relay (if any) is closed,
the url is stored and status set to connecting; on success the new relay is
stored and status becomes connected; on failure status becomes disconnected,
the relay field keeps its previous value, and the error is rethrown to the
caller (modelled as the Except result). -/
def connectModel (s : RelayModState) (url : String) (ok : Bool) :
    RelayModState × Except String Unit :=
  let s1 := { s with url := url, status := RelayStatus.connecting }
  if ok then
    ({ s1 with
        relay := some s1.nextRelay
        nextRelay := s1.nextRelay + 1
        status := RelayStatus.connected }, Except.ok ())
  else
    ({ s1 with status := RelayStatus.disconnected }, Except.error "connection failed")

/-- subscribeMemoryEvents from relay.ts: returns null and changes nothing
when no relay is connected.  Otherwise the subscription id is the string
snow-mem-<Date.now()>, modelled by the millisecond clock value passed in as
now; Map.set keys the map by that id, so an existing map entry under the
same id is evicted from the map WITHOUT close() being called on it, and the
new open subscription is stored under the id. -/
def subscribeModel (s : RelayModState) (now : Nat) : RelayModState × Option Nat :=
  match s.relay with
  | none => (s, none)
  | some _ =>
      ({ s with subs :=
          (s.subs.map (fun e =>
            if (e.sid == now) && e.inMap then { e with inMap := false } else e))
          ++ [⟨now, 0, true⟩] },
        some now)

/-- unsubscribe from relay.ts: when the id is in the map, close that
subscription once and remove it from the map. -/
def unsubscribeModel (s : RelayModState) (sid : Nat) : RelayModState :=
  { s with subs := s.subs.map (fun e =>
      if (e.sid == sid) && e.inMap then { e with closes := e.closes + 1, inMap := false }
      else e) }

/-- Close an entry still in the map; leave closed entries untouched. -/
def closeOpenEntry (e : SubEntry) : SubEntry :=
  if e.inMap then { e with closes := e.closes + 1, inMap := false } else e

/-- disconnect from relay.ts: when a relay is held, every subscription in
the map is closed and removed and the relay is closed and cleared; in either
case the status becomes disconnected. -/
def disconnectModel (s : RelayModState) : RelayModState :=
  match s.relay with
  | some _ =>
      { s with
          subs := s.subs.map closeOpenEntry
          relay := none
          status := RelayStatus.disconnected }
  | none => { s with status := RelayStatus.disconnected }

/-- onevent handler installed by subscribeMemoryEvents (relay.ts lines
94-97): unconditionally count the event and forward it to every registered
listener; the listener results are collected. -/
def oneventHandler (eventCount : Nat) (listeners : List (NostrEvent → Option String))
    (e : NostrEvent) : Nat × List (Option String) :=
  (eventCount + 1, listeners.map (fun f => f e))

/-- Arrival of one event on the open subscription, as it affects the module
state: the count increments (relay.ts line 95). -/
def eventArriveModel (s : RelayModState) : RelayModState :=
  { s with eventCount := s.eventCount + 1 }

/-- Reachable states of the relay module under its exported operations. -/
inductive RReach : RelayModState → Prop where
  | init : RReach initRelay
  | conn (url : String) (ok : Bool) {s : RelayModState} :
      RReach s → RReach (connectModel s url ok).1
  | sub (now : Nat) {s : RelayModState} : RReach s → RReach (subscribeModel s now).1
  | unsub (sid : Nat) {s : RelayModState} : RReach s → RReach (unsubscribeModel s sid)
  | disc {s : RelayModState} : RReach s → RReach (disconnectModel s)
  | ev {s : RelayModState} : RReach s → RReach (eventArriveModel s)

/-! ## Event-log handler and event inspector (debug-console.ts init) -/

/-- Log entry built by the onEvent listener (debug-console.ts line 80): kind
interpolates without escaping, the id is sliced to 16 characters and
escaped, the time renders through toLocaleTimeString.  Reading slice on an
absent id throws, modelled as none. -/
def logEntryHtml (e : NostrEvent) : Option String :=
  match e.id with
  | none => none
  | some i =>
      some ("<strong>" ++ showKind e.kind ++ "</strong> " ++
        escapeHtmlS (i.take 16) ++ "... <em>" ++
        dateToLocaleTime (e.created_at.map (fun c => c * 1000)) ++ "</em>")

/-- Bounding loop of the log (debug-console.ts lines 83-85): while more than
200 entries remain, remove the last. -/
def trimLog (l : List String) : List String :=
  if l.length > 200 then trimLog l.dropLast else l
termination_by l.length
decreasing_by simp [List.length_dropLast]; omega

/-- onEvent listener of the debug console acting on the log: prepend the new
entry, then trim to the bound; none when building the entry throws (absent
id). -/
def onEventLog (log : List String) (e : NostrEvent) : Option (List String) :=
  (logEntryHtml e).map (fun entry => trimLog (entry :: log))

/-- Inspector output area content: set through innerHTML or textContent. -/
inductive ConsoleOut where
  | html : String → ConsoleOut
  | text : String → ConsoleOut
deriving DecidableEq, Repr

/-- Debug-console state touched by the inspector handler: the relay event
count, the subscription list, the log and the inspector output area. -/
structure ConsoleState where
  eventCount : Nat
  subscriptions : List Nat
  logEntries : List String
  inspectOutput : ConsoleOut
deriving DecidableEq, Repr

/-- Initial debug-console state. -/
def initConsole : ConsoleState :=
  { eventCount := 0, subscriptions := [], logEntries := [],
    inspectOutput := ConsoleOut.text "" }

/-- JavaScript String.prototype.trim: strip whitespace from both ends. -/
def jsTrim (s : String) : String :=
  String.mk (((s.data.dropWhile Char.isWhitespace).reverse.dropWhile
    Char.isWhitespace).reverse)

/-- btnInspect click handler (debug-console.ts lines 123-132).  The textarea
value is trimmed; an empty result returns early with no change.  Otherwise
the JSON parse (external JSON.parse builtin, passed as the parse oracle) and
the formatting run inside one try: a successful format sets the output as
HTML, any thrown error sets the output to the textual parse-error message.
No other field of the state is touched on any path. -/
def btnInspectHandler (parse : String → Except String NostrEvent)
    (raw : String) (s : ConsoleState) : ConsoleState :=
  let t := jsTrim raw
  if t = "" then s
  else
    match parse t with
    | Except.ok ev =>
        match formatEvent ev with
        | Except.ok h => { s with inspectOutput := ConsoleOut.html h }
        | Except.error m => { s with inspectOutput := ConsoleOut.text ("Parse error: " ++ m) }
    | Except.error m => { s with inspectOutput := ConsoleOut.text ("Parse error: " ++ m) }

/-! ## Interleaved connection machine (relay.ts connect, split at its await)

connect suspends at await relay.connect(); the module state records the new
relay only after the await resolves.  The machine below makes the suspension
explicit: connStart performs everything before the await (closing the
tracked relay, allocating the attempt), connFinishOk / connFinishFail
perform the continuation.  A network connection counts as open from the
moment its attempt resolves successfully until close() is called on it. -/

/-- State of the interleaved machine: tracked relay, status, attempts in
flight, open network connections, fresh-handle counter. -/
structure NetState where
  relay : Option Nat
  status : RelayStatus
  pending : List Nat
  openConns : List Nat
  nextH : Nat
deriving DecidableEq, Repr

/-- Initial interleaved-machine state. -/
def initNet : NetState :=
  { relay := none, status := .disconnected, pending := [], openConns := [], nextH := 0 }

/-- Close the relay tracked in state.relay, as the head of connect does. -/
def closeTracked (s : NetState) : NetState :=
  match s.relay with
  | some r => { s with openConns := s.openConns.erase r }
  | none => s

/-- Atomic steps of the interleaved machine. -/
inductive CStep where
  | connStart : CStep
  | connFinishOk : Nat → CStep
  | connFinishFail : Nat → CStep
  | disconnectStep : CStep
deriving DecidableEq, Repr

/-- One step of the interleaved machine. -/
def exec (s : NetState) : CStep → NetState
  | .connStart =>
      let s1 := closeTracked s
      { s1 with
          status := .connecting
          pending := s1.pending ++ [s1.nextH]
          nextH := s1.nextH + 1 }
  | .connFinishOk h =>
      if h ∈ s.pending then
        { s with
            pending := s.pending.erase h
            openConns := s.openConns ++ [h]
            relay := some h
            status := .connected }
      else s
  | .connFinishFail h =>
      if h ∈ s.pending then
        { s with pending := s.pending.erase h, status := .disconnected }
      else s
  | .disconnectStep =>
      match s.relay with
      | some r =>
          { s with
              openConns := s.openConns.erase r
              relay := none
              status := .disconnected }
      | none => { s with status := .disconnected }

/-- Run of the interleaved machine over a list of steps. -/
def runNet (s : NetState) (tr : List CStep) : NetState := tr.foldl exec s

/-- One connect call run to completion with no interleaving: the start step
immediately followed by its own finish step. -/
def seqConnect (s : NetState) (ok : Bool) : NetState :=
  exec (exec s .connStart) (if ok then .connFinishOk s.nextH else .connFinishFail s.nextH)

/-- States reachable when every connect runs to completion before the next
operation starts. -/
inductive SeqReach : NetState → Prop where
  | init : SeqReach initNet
  | conn (ok : Bool) {s : NetState} : SeqReach s → SeqReach (seqConnect s ok)
  | disc {s : NetState} : SeqReach s → SeqReach (exec s .disconnectStep)

/-! ## Theorems -/

/-- Closed form of the bounding loop: trimming is taking the first 200. -/
theorem trimLog_eq_take (l : List String) : trimLog l = l.take 200 := by
  generalize hn : l.length = n
  induction n using Nat.strong_induction_on generalizing l with
  | _ n ih =>
    subst hn
    rw [trimLog.eq_def]
    split
    next h =>
      rw [ih l.dropLast.length (by simp [List.length_dropLast]; omega) l.dropLast rfl]
      rw [List.dropLast_eq_take, List.take_take]
      rw [min_eq_left (by omega)]
    next h =>
      exact (List.take_of_length_le (by omega)).symm

/-- C10: after the event-log handler finishes processing an incoming event,
the log holds at most 200 entries; the new entry is prepended at the front
and eviction keeps exactly the first (most recent) entries, dropping only
the oldest from the tail. -/
theorem eventLog_bounded (log : List String) (e : NostrEvent) (entry : String)
    (h : logEntryHtml e = some entry) :
    onEventLog log e = some (entry :: log.take 199)
  ∧ (entry :: log.take 199).length ≤ 200 := by
  constructor
  · rw [onEventLog, h, Option.map_some', trimLog_eq_take]
    rw [show (200 : ℕ) = 199 + 1 from rfl, List.take_succ_cons]
  · simp [List.length_take]

/-- Sample event whose log entry is defined, for the witness below. -/
def sampleLogEvent : NostrEvent :=
  { id := some "abcd", pubkey := some "p", kind := some 1,
    created_at := some 5, tags := some [], content := some "" }

/-- Witness: the bound theorem applied at a concrete event and log. -/
theorem eventLog_bounded_witness :
    onEventLog [] sampleLogEvent =
      some ("<strong>1</strong> abcd... <em>time:5000</em>" :: ([] : List String).take 199)
  ∧ ("<strong>1</strong> abcd... <em>time:5000</em>" :: ([] : List String).take 199).length ≤ 200 :=
  eventLog_bounded [] sampleLogEvent "<strong>1</strong> abcd... <em>time:5000</em>" rfl

/-- Event delivered on the memory subscription that is malformed: the id
field is absent. -/
def malformedSample : NostrEvent :=
  { id := none, pubkey := some "feedface", kind := some 30078,
    created_at := some 1700000000, tags := some [["d", "snow:memory:rust"]],
    content := some "detail" }

/-- C3: evaluation of the ingestion path at a malformed delivered event.
The onevent handler applies the event to local state (the count increments)
and forwards it to the registered listener with no validation and no
diagnostic, and the log listener then throws reading id — so a malformed
event is neither dropped nor harmless, contradicting the claim. -/
theorem malformed_event_applied :
    isMalformed malformedSample = true
  ∧ oneventHandler 0 [logEntryHtml] malformedSample = (1, [none])
  ∧ logEntryHtml malformedSample = none :=
  ⟨rfl, rfl, rfl⟩

/-- C4 counterexample: a failed connection attempt IS surfaced to the caller
as an error — connect rethrows it — rather than falling back to cached
data. -/
theorem connect_failure_surfaced :
    (connectModel initRelay "wss://relay.example" false).2 = Except.error "connection failed"
  ∧ (connectModel initRelay "wss://relay.example" false).2 ≠ Except.ok () :=
  ⟨rfl, fun h => Except.noConfusion h⟩

/-- C4 amended: when a connection attempt fails, connect records the url,
sets the status to disconnected, leaves every other field (including the
cacheless relay handle) unchanged, and propagates the error to the caller;
the relay module has no timeout-based cache fallback and no staleness
flag. -/
theorem connect_failure_behavior (s : RelayModState) (url : String) :
    connectModel s url false =
      ({ s with url := url, status := RelayStatus.disconnected },
        Except.error "connection failed") := rfl

/-- C6: every event matching the one filter subscribeMemoryEvents sends has
the app-data kind 30078 and carries a d tag whose value lies in the
snow:memory: namespace, so only records in the recognized namespace are
delivered to the registered listeners. -/
theorem memory_subscription_namespace (e : NostrEvent)
    (h : matchesFilter memoryEventsFilter e = true) :
    e.kind = some 30078
  ∧ ∃ tags, e.tags = some tags ∧ ∃ tag ∈ tags,
      tag.headD "" = "d" ∧ "snow:memory:".data.isPrefixOf (tag.getD 1 "").data = true := by
  rw [matchesFilter, Bool.and_eq_true] at h
  obtain ⟨h1, h2⟩ := h
  constructor
  · cases hk : e.kind with
    | none => rw [hk] at h1; exact absurd h1 (by simp)
    | some k =>
        rw [hk] at h1
        have hk2 : k = 30078 := by simpa [memoryEventsFilter] using h1
        rw [hk2]
  · cases ht : e.tags with
    | none => rw [ht] at h2; exact absurd h2 (by simp)
    | some tags =>
        rw [ht] at h2
        rw [List.any_eq_true] at h2
        obtain ⟨tag, htag, hp⟩ := h2
        rw [Bool.and_eq_true] at hp
        refine ⟨tags, rfl, tag, htag, ?_, ?_⟩
        · exact beq_iff_eq.mp hp.1
        · have hv : tag.getD 1 "" = "snow:memory:" := by
            simpa [memoryEventsFilter] using hp.2
          rw [hv]
          decide

/-- Concrete event matching the memory filter, for the witness below. -/
def memorySampleEvent : NostrEvent :=
  { id := some "abc", pubkey := some "p", kind := some 30078,
    created_at := some 0, tags := some [["d", "snow:memory:"]], content := some "" }

/-- Witness: the namespace theorem applied at a concrete matching event. -/
theorem memory_subscription_namespace_witness :
    matchesFilter memoryEventsFilter memorySampleEvent = true
  ∧ (memorySampleEvent.kind = some 30078
    ∧ ∃ tags, memorySampleEvent.tags = some tags ∧ ∃ tag ∈ tags,
        tag.headD "" = "d"
      ∧ "snow:memory:".data.isPrefixOf (tag.getD 1 "").data = true) :=
  ⟨by decide, memory_subscription_namespace memorySampleEvent (by decide)⟩

/-- Parse oracle that always reports a syntax error, standing for JSON.parse
on inputs that are not valid JSON. -/
def failParse : String → Except String NostrEvent :=
  fun _ => Except.error "Unexpected end of JSON input"

/-- C7 counterexample: the empty input is not valid JSON, yet the inspect
handler returns early without displaying any error — the claim that every
invalid-JSON input yields a displayed typed error fails at the empty
input. -/
theorem inspector_empty_input_no_error :
    failParse "" = Except.error "Unexpected end of JSON input"
  ∧ btnInspectHandler failParse "" initConsole = initConsole
  ∧ initConsole.inspectOutput = ConsoleOut.text "" :=
  ⟨rfl, rfl, rfl⟩

/-- C7 amended: for every input that is nonempty after trimming and is not
valid JSON (the parse oracle reports an error), the handler sets the output
area to the textual parse-error message and leaves the event count, the
subscriptions and the log untouched; the handler is a total function, so no
error escapes it. -/
theorem inspector_invalid_json (parse : String → Except String NostrEvent)
    (raw : String) (s : ConsoleState) (m : String)
    (h1 : jsTrim raw ≠ "") (h2 : parse (jsTrim raw) = Except.error m) :
    btnInspectHandler parse raw s =
      { s with inspectOutput := ConsoleOut.text ("Parse error: " ++ m) }
  ∧ (btnInspectHandler parse raw s).eventCount = s.eventCount
  ∧ (btnInspectHandler parse raw s).subscriptions = s.subscriptions
  ∧ (btnInspectHandler parse raw s).logEntries = s.logEntries := by
  have key : btnInspectHandler parse raw s =
      { s with inspectOutput := ConsoleOut.text ("Parse error: " ++ m) } := by
    unfold btnInspectHandler
    rw [if_neg h1, h2]
  exact ⟨key, by rw [key], by rw [key], by rw [key]⟩

/-- Witness: the amended inspector theorem at a concrete non-JSON input. -/
theorem inspector_invalid_json_witness :
    btnInspectHandler failParse "nonsense" initConsole =
      { initConsole with
          inspectOutput := ConsoleOut.text ("Parse error: " ++ "Unexpected end of JSON input") } :=
  (inspector_invalid_json failParse "nonsense" initConsole
    "Unexpected end of JSON input" (by decide) rfl).1

/-- Character replacement distributes over concatenation. -/
theorem replaceAllC_append (c : Char) (rep : List Char) (l1 l2 : List Char) :
    replaceAllC c rep (l1 ++ l2) = replaceAllC c rep l1 ++ replaceAllC c rep l2 := by
  induction l1 with
  | nil => simp [replaceAllC]
  | cons x xs ih => simp [replaceAllC, ih]

/-- Character replacement on a singleton. -/
theorem replaceAllC_single (c : Char) (rep : List Char) (x : Char) :
    replaceAllC c rep [x] = if x = c then rep else [x] := by
  simp [replaceAllC]

/-- escapeHtml acts character by character. -/
theorem escapeHtml_cons (x : Char) (s : List Char) :
    escapeHtml (x :: s) = escChar x ++ escapeHtml s := by
  show replaceAllC '"' "&quot;".data
      (replaceAllC '>' "&gt;".data
        (replaceAllC '<' "&lt;".data
          ((if x = '&' then "&amp;".data else [x]) ++ replaceAllC '&' "&amp;".data s))) = _
  rw [replaceAllC_append, replaceAllC_append, replaceAllC_append]
  show _ ++ escapeHtml s = escChar x ++ escapeHtml s
  congr 1
  by_cases h1 : x = '&'
  · subst h1; decide
  · rw [if_neg h1]
    by_cases h2 : x = '<'
    · subst h2; decide
    · by_cases h3 : x = '>'
      · subst h3; decide
      · by_cases h4 : x = '"'
        · subst h4; decide
        · rw [replaceAllC_single, if_neg h2, replaceAllC_single, if_neg h3,
            replaceAllC_single, if_neg h4]
          simp [escChar, h1, h2, h3, h4]

/-- The image of one character holds no dangerous character. -/
theorem noDanger_escChar (x : Char) : noDanger (escChar x) = true := by
  unfold escChar
  by_cases h1 : x = '&'
  · subst h1; decide
  · rw [if_neg h1]
    by_cases h2 : x = '<'
    · subst h2; decide
    · by_cases h3 : x = '>'
      · subst h3; decide
      · by_cases h4 : x = '"'
        · subst h4; decide
        · rw [if_neg h2, if_neg h3, if_neg h4]
          simp [noDanger, h2, h3, h4]

/-- Prefix tests survive extension on the right. -/
theorem isPrefixOf_append_right (p l1 l2 : List Char)
    (h : p.isPrefixOf l1 = true) : p.isPrefixOf (l1 ++ l2) = true := by
  induction p generalizing l1 with
  | nil => simp [List.isPrefixOf]
  | cons a as ih =>
    cases l1 with
    | nil => simp [List.isPrefixOf] at h
    | cons b bs =>
      simp only [List.cons_append, List.isPrefixOf, Bool.and_eq_true] at h ⊢
      exact ⟨h.1, ih bs h.2⟩

/-- The entity property is preserved by concatenation. -/
theorem entitiesOk_append (l1 l2 : List Char)
    (h1 : entitiesOk l1 = true) (h2 : entitiesOk l2 = true) :
    entitiesOk (l1 ++ l2) = true := by
  induction l1 with
  | nil => simpa
  | cons x rest ih =>
    rw [List.cons_append, entitiesOk, Bool.and_eq_true]
    rw [entitiesOk, Bool.and_eq_true] at h1
    refine ⟨?_, ih h1.2⟩
    by_cases hx : x = '&'
    · rw [if_pos hx]
      rw [if_pos hx] at h1
      have hpre := h1.1
      rw [Bool.or_eq_true, Bool.or_eq_true, Bool.or_eq_true] at hpre ⊢
      rcases hpre with ((hp | hp) | hp) | hp
      · exact Or.inl (Or.inl (Or.inl (isPrefixOf_append_right _ _ _ hp)))
      · exact Or.inl (Or.inl (Or.inr (isPrefixOf_append_right _ _ _ hp)))
      · exact Or.inl (Or.inr (isPrefixOf_append_right _ _ _ hp))
      · exact Or.inr (isPrefixOf_append_right _ _ _ hp)
    · rw [if_neg hx]

/-- The image of one character satisfies the entity property even when
followed by further escaped output. -/
theorem entitiesOk_escChar_append (x : Char) (t : List Char)
    (ht : entitiesOk t = true) : entitiesOk (escChar x ++ t) = true := by
  unfold escChar
  by_cases h1 : x = '&'
  · subst h1
    rw [if_pos rfl]
    simp only [String.data] at *
    simp [entitiesOk, List.isPrefixOf, ht]
  · rw [if_neg h1]
    by_cases h2 : x = '<'
    · subst h2; simp [entitiesOk, List.isPrefixOf, ht]
    · by_cases h3 : x = '>'
      · subst h3; simp [entitiesOk, List.isPrefixOf, ht]
      · by_cases h4 : x = '"'
        · subst h4; simp [entitiesOk, List.isPrefixOf, ht]
        · rw [if_neg h2, if_neg h3, if_neg h4]
          simp [entitiesOk, h1, ht]

/-- escapeHtml output holds no <, > or double-quote character. -/
theorem escapeHtml_noDanger (s : List Char) : noDanger (escapeHtml s) = true := by
  induction s with
  | nil => decide
  | cons x xs ih =>
    rw [escapeHtml_cons]
    rw [noDanger, List.all_append]
    rw [show (escapeHtml xs).all (fun c => (c != '<') && (c != '>') && (c != '"')) =
      noDanger (escapeHtml xs) from rfl, ih]
    rw [show (escChar x).all (fun c => (c != '<') && (c != '>') && (c != '"')) =
      noDanger (escChar x) from rfl, noDanger_escChar]
    rfl

/-- Every ampersand in escapeHtml output begins one of the four entities. -/
theorem escapeHtml_entitiesOk (s : List Char) : entitiesOk (escapeHtml s) = true := by
  induction s with
  | nil => decide
  | cons x xs ih =>
    rw [escapeHtml_cons]
    exact entitiesOk_escChar_append x _ ih

/-- The joined, escaped tag-value segment rendered by renderTags is safe:
no dangerous character and every ampersand begins an entity. -/
theorem escapedTagValues_safe (tag : List (List Char)) :
    noDanger (escapedTagValues tag) = true ∧ entitiesOk (escapedTagValues tag) = true := by
  induction tag with
  | nil => exact ⟨rfl, rfl⟩
  | cons x xs ih =>
    cases xs with
    | nil =>
        exact ⟨escapeHtml_noDanger x, escapeHtml_entitiesOk x⟩
    | cons y ys =>
        have hx : escapedTagValues (x :: y :: ys) =
            escapeHtml x ++ (", ".data ++ escapedTagValues (y :: ys)) := by
          simp [escapedTagValues, joinSep, List.append_assoc]
        constructor
        · rw [hx, noDanger, List.all_append, List.all_append]
          have h1 : (escapeHtml x).all (fun c => (c != '<') && (c != '>') && (c != '"')) = true :=
            escapeHtml_noDanger x
          have h2 : (escapedTagValues (y :: ys)).all
              (fun c => (c != '<') && (c != '>') && (c != '"')) = true := ih.1
          rw [h1, h2]
          decide
        · rw [hx]
          refine entitiesOk_append _ _ (escapeHtml_entitiesOk x)
            (entitiesOk_append _ _ (by decide) ih.2)

/-- C8: escapeHtml output contains no <, > or double-quote character and
every ampersand in it begins one of the entities amp, lt, gt or quot; the
tag-value segments that renderTags interpolates between brackets pass every
value through escapeHtml, so they satisfy the same two properties and cannot
inject markup. -/
theorem escapeHtml_safety (s : List Char) :
    noDanger (escapeHtml s) = true
  ∧ entitiesOk (escapeHtml s) = true
  ∧ ∀ tag : List (List Char),
      noDanger (escapedTagValues tag) = true ∧ entitiesOk (escapedTagValues tag) = true :=
  ⟨escapeHtml_noDanger s, escapeHtml_entitiesOk s, fun tag => escapedTagValues_safe tag⟩

/-! ## Relay-module invariants (C9) -/

/-- Invariant of the relay module: with no relay held the subscription map
is empty, and a subscription still in the map has never been closed. -/
def RInv (s : RelayModState) : Prop :=
  (s.relay = none → ∀ e ∈ s.subs, e.inMap = false)
  ∧ (∀ e ∈ s.subs, e.inMap = true → e.closes = 0)

/-- A closed-on-disconnect entry is never still in the map. -/
theorem closeOpenEntry_inMap (e : SubEntry) : (closeOpenEntry e).inMap = false := by
  unfold closeOpenEntry
  by_cases h : e.inMap
  · rw [if_pos h]
  · rw [if_neg h]
    exact Bool.not_eq_true e.inMap |>.mp h

/-- Every reachable state of the relay module satisfies the invariant. -/
theorem rinv_reach {s : RelayModState} (h : RReach s) : RInv s := by
  induction h with
  | init =>
      exact ⟨fun _ e he => absurd he (List.not_mem_nil e),
        fun e he => absurd he (List.not_mem_nil e)⟩
  | conn url ok h ih =>
      by_cases hok : ok
      · subst hok
        refine ⟨fun hrel => ?_, ?_⟩
        · simp [connectModel] at hrel
        · simpa [connectModel] using ih.2
      · rw [Bool.not_eq_true] at hok
        subst hok
        refine ⟨fun hrel e he => ?_, fun e he => ?_⟩
        · exact ih.1 (by simpa [connectModel] using hrel) e (by simpa [connectModel] using he)
        · exact ih.2 e (by simpa [connectModel] using he)
  | sub now h ih =>
      rename_i s2
      cases hrel : s2.relay with
      | none => simpa [subscribeModel, hrel] using ih
      | some r =>
          refine ⟨fun hrel2 => ?_, fun e he hm => ?_⟩
          · simp [subscribeModel, hrel] at hrel2
          · simp only [subscribeModel, hrel] at he
            rcases List.mem_append.mp he with hold | hnew
            · obtain ⟨e0, he0, heq⟩ := List.mem_map.mp hold
              by_cases hc : ((e0.sid == now) && e0.inMap) = true
              · rw [if_pos hc] at heq
                rw [← heq] at hm
                exact absurd hm (by simp)
              · rw [Bool.not_eq_true] at hc
                simp only [hc, Bool.false_eq_true, if_false] at heq
                rw [← heq] at hm ⊢
                exact ih.2 e0 he0 hm
            · rw [List.mem_singleton.mp hnew]
  | unsub sid h ih =>
      refine ⟨fun hrel e he => ?_, fun e he hm => ?_⟩
      · simp only [unsubscribeModel] at he hrel
        obtain ⟨e0, he0, heq⟩ := List.mem_map.mp he
        have h0 : e0.inMap = false := ih.1 hrel e0 he0
        rw [← heq]
        by_cases hc : ((e0.sid == sid) && e0.inMap) = true
        · rw [Bool.and_eq_true] at hc
          rw [h0] at hc
          exact absurd hc.2 (by simp)
        · rw [Bool.not_eq_true] at hc
          simp only [hc, Bool.false_eq_true, if_false]
          exact h0
      · simp only [unsubscribeModel] at he
        obtain ⟨e0, he0, heq⟩ := List.mem_map.mp he
        by_cases hc : ((e0.sid == sid) && e0.inMap) = true
        · rw [if_pos hc] at heq
          rw [← heq] at hm
          exact absurd hm (by simp)
        · rw [Bool.not_eq_true] at hc
          simp only [hc, Bool.false_eq_true, if_false] at heq
          rw [← heq] at hm ⊢
          exact ih.2 e0 he0 hm
  | disc h ih =>
      rename_i s2
      cases hrel : s2.relay with
      | none =>
          refine ⟨fun _ e he => ?_, fun e he hm => ?_⟩
          · exact ih.1 hrel e (by simpa [disconnectModel, hrel] using he)
          · exact ih.2 e (by simpa [disconnectModel, hrel] using he) hm
      | some r =>
          refine ⟨fun _ e he => ?_, fun e he hm => ?_⟩
          · simp only [disconnectModel, hrel] at he
            obtain ⟨e0, _, heq⟩ := List.mem_map.mp he
            rw [← heq]
            exact closeOpenEntry_inMap e0
          · simp only [disconnectModel, hrel] at he
            obtain ⟨e0, _, heq⟩ := List.mem_map.mp he
            rw [← heq] at hm
            rw [closeOpenEntry_inMap e0] at hm
            exact absurd hm (by simp)
  | ev h ih => exact ih

/-- C9 amended: after disconnect returns, the relay handle is null, the
subscription map is empty, every subscription still PRESENT IN THE MAP when
disconnect was called has been closed exactly once (its close count goes
from 0 to 1), subscriptions no longer in the map — including one evicted by
a same-millisecond id collision — are left untouched (so an evicted open
subscription stays unclosed), and the status is disconnected; a second
disconnect from that state changes nothing. -/
theorem disconnect_postcondition {s : RelayModState} (h : RReach s) :
    (disconnectModel s).relay = none
  ∧ (disconnectModel s).status = RelayStatus.disconnected
  ∧ (disconnectModel s).subs.filter (fun e => e.inMap) = []
  ∧ (∀ e ∈ s.subs, e.inMap = true →
      ({ e with closes := 1, inMap := false } : SubEntry) ∈ (disconnectModel s).subs)
  ∧ (∀ e ∈ s.subs, e.inMap = false → e ∈ (disconnectModel s).subs)
  ∧ disconnectModel (disconnectModel s) = disconnectModel s := by
  have inv := rinv_reach h
  cases hrel : s.relay with
  | none =>
      have hsubs : ∀ e ∈ s.subs, e.inMap = false := inv.1 hrel
      refine ⟨by simp [disconnectModel, hrel], by simp [disconnectModel, hrel], ?_, ?_, ?_, ?_⟩
      · simp only [disconnectModel, hrel]
        rw [List.filter_eq_nil_iff]
        intro e he
        rw [hsubs e he]
        exact Bool.false_ne_true
      · intro e he hm
        rw [hsubs e he] at hm
        exact absurd hm (by simp)
      · intro e he _
        simpa [disconnectModel, hrel] using he
      · simp [disconnectModel, hrel]
  | some r =>
      refine ⟨by simp [disconnectModel, hrel], by simp [disconnectModel, hrel], ?_, ?_, ?_, ?_⟩
      · simp only [disconnectModel, hrel]
        rw [List.filter_eq_nil_iff]
        intro e he
        obtain ⟨e0, _, heq⟩ := List.mem_map.mp he
        rw [← heq, closeOpenEntry_inMap e0]
        exact Bool.false_ne_true
      · intro e he hm
        simp only [disconnectModel, hrel]
        refine List.mem_map.mpr ⟨e, he, ?_⟩
        unfold closeOpenEntry
        rw [if_pos hm, inv.2 e he hm]
      · intro e he hm
        simp only [disconnectModel, hrel]
        refine List.mem_map.mpr ⟨e, he, ?_⟩
        unfold closeOpenEntry
        rw [hm]
        simp
      · simp [disconnectModel, hrel]

/-- Witness: the disconnect theorem applied at the initial module state. -/
theorem disconnect_postcondition_witness :
    (disconnectModel initRelay).relay = none :=
  (disconnect_postcondition RReach.init).1

/-- Reachable state refuting the original C9: connect succeeds, then two
subscribeMemoryEvents calls land in the same millisecond (Date.now() = 42
for both), then disconnect.  The second Map.set evicts the first, still
open, subscription from the map without closing it, and disconnect closes
only map entries. -/
def collisionState : RelayModState :=
  disconnectModel
    (subscribeModel (subscribeModel (connectModel initRelay "wss://r" true).1 42).1 42).1

/-- C9 counterexample: in the final state of the collision trace the first
subscription's ledger entry is SubEntry.mk 42 0 false — it was opened,
close() was called on it zero times before disconnect (so it was open), and
zero times after — while only the second entry reaches close count 1.  So
it is false that every subscription that was open has been closed exactly
once by disconnect. -/
theorem subscription_eviction_not_closed :
    collisionState.subs = [SubEntry.mk 42 0 false, SubEntry.mk 42 1 false]
  ∧ collisionState.relay = none
  ∧ collisionState.status = RelayStatus.disconnected :=
  ⟨rfl, rfl, rfl⟩

/-! ## Connection machine invariants (C5) -/

/-- C5 counterexample: two connect requests where the second is issued while
the first is still in flight (before its await resolves).  Neither start
step closes the other attempt — the module only tracks a relay after its
await resolves — so once both attempts resolve, two network connections are
simultaneously open, and connection 0 is never closed. -/
theorem concurrent_connect_two_open :
    (runNet initNet [CStep.connStart, CStep.connStart,
      CStep.connFinishOk 0, CStep.connFinishOk 1]).openConns = [0, 1]
  ∧ 2 ≤ (runNet initNet [CStep.connStart, CStep.connStart,
      CStep.connFinishOk 0, CStep.connFinishOk 1]).openConns.length := by
  exact ⟨by decide, by decide⟩

/-- Invariant of the sequential machine: no attempt in flight between
operations, at most one open connection, the open connection is the tracked
one, and the tracked handle is stale-free (below the fresh counter). -/
def NetInv (s : NetState) : Prop :=
  s.pending = []
  ∧ s.openConns.length ≤ 1
  ∧ (∀ h ∈ s.openConns, s.relay = some h)
  ∧ (∀ r, s.relay = some r → r < s.nextH)

/-- Under the invariant, the head of connect leaves no connection open. -/
theorem closeTracked_openConns (s : NetState) (inv : NetInv s) :
    (closeTracked s).openConns = [] := by
  obtain ⟨hp, hl, ho, hn⟩ := inv
  unfold closeTracked
  cases hrel : s.relay with
  | none =>
      cases hoc : s.openConns with
      | nil => rfl
      | cons a as =>
          have := ho a (by rw [hoc]; exact List.mem_cons_self a as)
          rw [hrel] at this
          exact absurd this (by simp)
  | some r =>
      cases hoc : s.openConns with
      | nil => rfl
      | cons a as =>
          cases as with
          | nil =>
              have := ho a (by rw [hoc]; exact List.mem_cons_self a [])
              rw [hrel] at this
              have ha : a = r := by
                injection this.symm
              simp [hoc, ha, List.erase_cons_head]
          | cons b bs =>
              rw [hoc] at hl
              exact absurd hl (by simp)

/-- Under the invariant, a completed connect leaves exactly the new
connection open on success and none open on failure. -/
theorem seqConnect_openConns (s : NetState) (inv : NetInv s) (ok : Bool) :
    (seqConnect s ok).openConns = if ok then [s.nextH] else [] := by
  have hct := closeTracked_openConns s inv
  have hp := inv.1
  unfold seqConnect exec
  cases ok with
  | true =>
      simp only [if_pos]
      have hpend : (closeTracked s).pending = s.pending := by
        unfold closeTracked
        cases s.relay <;> rfl
      have hnh : (closeTracked s).nextH = s.nextH := by
        unfold closeTracked
        cases s.relay <;> rfl
      simp [hct, hpend, hnh, hp]
  | false =>
      have hpend : (closeTracked s).pending = s.pending := by
        unfold closeTracked
        cases s.relay <;> rfl
      have hnh : (closeTracked s).nextH = s.nextH := by
        unfold closeTracked
        cases s.relay <;> rfl
      simp [hct, hpend, hnh, hp]

/-- The fields of a completed connect other than the open set. -/
theorem seqConnect_fields (s : NetState) (inv : NetInv s) (ok : Bool) :
    (seqConnect s ok).pending = []
  ∧ (seqConnect s ok).relay = (if ok then some s.nextH else s.relay)
  ∧ (seqConnect s ok).nextH = s.nextH + 1 := by
  have hp := inv.1
  have hpend : (closeTracked s).pending = s.pending := by
    unfold closeTracked
    cases s.relay <;> rfl
  have hnh : (closeTracked s).nextH = s.nextH := by
    unfold closeTracked
    cases s.relay <;> rfl
  have hrel : (closeTracked s).relay = s.relay := by
    unfold closeTracked
    cases hr2 : s.relay <;> simp [hr2]
  unfold seqConnect exec
  cases ok with
  | true => simp [hpend, hnh, hrel, hp]
  | false => simp [hpend, hnh, hrel, hp]

/-- The invariant is preserved by every sequential operation. -/
theorem seqreach_inv {s : NetState} (h : SeqReach s) : NetInv s := by
  induction h with
  | init =>
      refine ⟨rfl, by simp [initNet], ?_, ?_⟩
      · intro h hmem
        exact absurd hmem (List.not_mem_nil h)
      · intro r hr
        exact absurd hr (by simp [initNet])
  | conn ok h ih =>
      rename_i s2
      have hoc := seqConnect_openConns s2 ih ok
      have hf := seqConnect_fields s2 ih ok
      refine ⟨hf.1, ?_, ?_, ?_⟩
      · rw [hoc]
        cases ok <;> simp
      · intro h2 hmem
        rw [hoc] at hmem
        cases ok with
        | true =>
            simp only [if_pos] at hmem
            rw [List.mem_singleton.mp hmem, hf.2.1]
            simp
        | false => exact absurd hmem (by simp)
      · intro r hr
        rw [hf.2.1] at hr
        rw [hf.2.2]
        cases ok with
        | true =>
            simp only [if_pos] at hr
            injection hr with hr2
            omega
        | false =>
            simp only [Bool.false_eq_true, if_false] at hr
            have := ih.2.2.2 r hr
            omega
  | disc h ih =>
      rename_i s2
      obtain ⟨hp, hl, ho, hn⟩ := ih
      cases hrel : s2.relay with
      | none =>
          have hex : exec s2 CStep.disconnectStep =
              { s2 with status := RelayStatus.disconnected } := by
            simp [exec, hrel]
          rw [hex]
          refine ⟨hp, hl, ?_, ?_⟩
          · intro h2 hmem
            have := ho h2 hmem
            rw [hrel] at this
            exact absurd this (by simp)
          · intro r hr
            simp only at hr
            rw [hrel] at hr
            exact absurd hr (by simp)
      | some r =>
          have hex : exec s2 CStep.disconnectStep =
              { s2 with
                  openConns := s2.openConns.erase r
                  relay := none
                  status := RelayStatus.disconnected } := by
            simp [exec, hrel]
          rw [hex]
          refine ⟨hp, ?_, ?_, ?_⟩
          · calc (s2.openConns.erase r).length ≤ s2.openConns.length :=
                List.length_erase_le r s2.openConns
              _ ≤ 1 := hl
          · intro h2 hmem
            simp only at hmem
            cases hoc : s2.openConns with
            | nil =>
                rw [hoc] at hmem
                exact absurd hmem (by simp)
            | cons a as =>
                cases as with
                | nil =>
                    have := ho a (by rw [hoc]; exact List.mem_cons_self a [])
                    rw [hrel] at this
                    have ha : a = r := by injection this.symm
                    rw [hoc, ha, List.erase_cons_head] at hmem
                    exact absurd hmem (List.not_mem_nil h2)
                | cons b bs =>
                    rw [hoc] at hl
                    exact absurd hl (by simp)
          · intro r2 hr
            exact absurd hr (by simp)

/-- C5 amended: when every connect runs to completion before the next
operation begins, at most one network connection is open in every reachable
state, this remains true directly after a further connect, and that connect
closes the previously held connection before the new one is opened (the old
handle is not among the open connections afterwards).  A connect issued
while another is in flight escapes this guarantee, as the counterexample
shows. -/
theorem sequential_connect_single (s : NetState) (h : SeqReach s) :
    s.openConns.length ≤ 1
  ∧ (∀ ok : Bool, (seqConnect s ok).openConns.length ≤ 1)
  ∧ (∀ r, s.relay = some r → ∀ ok : Bool, r ∉ (seqConnect s ok).openConns) := by
  have inv := seqreach_inv h
  refine ⟨inv.2.1, ?_, ?_⟩
  · intro ok
    exact (seqreach_inv (SeqReach.conn ok h)).2.1
  · intro r hr ok
    rw [seqConnect_openConns s inv ok]
    have hlt := inv.2.2.2 r hr
    cases ok with
    | true =>
        simp only [if_pos, List.mem_singleton]
        omega
    | false => simp

/-- Witness: the sequential guarantee applied at the initial state. -/
theorem sequential_connect_single_witness :
    initNet.openConns.length ≤ 1 :=
  (sequential_connect_single initNet SeqReach.init).1

/-! ## Ranking (C1) -/

/-- The comparison rankLE is transitive. -/
theorem rankLE_trans (a b c : SearchResult)
    (hab : rankLE a b = true) (hbc : rankLE b c = true) : rankLE a c = true := by
  simp only [rankLE, decide_eq_true_eq] at hab hbc ⊢
  exact le_trans hab hbc

/-- The comparison rankLE is total. -/
theorem rankLE_total (a b : SearchResult) : (rankLE a b || rankLE b a) = true := by
  simp only [rankLE, Bool.or_eq_true, decide_eq_true_eq]
  exact le_total _ _

/-- rankLE spelled out: effectiveScore descending, then sourceRank
ascending, then modelTier ascending, then createdAt descending. -/
theorem rankLE_iff (a b : SearchResult) :
    rankLE a b = true ↔
      (b.effective_score < a.effective_score
        ∨ (a.effective_score = b.effective_score
          ∧ (a.source_rank < b.source_rank
            ∨ (a.source_rank = b.source_rank
              ∧ (a.model_tier < b.model_tier
                ∨ (a.model_tier = b.model_tier
                  ∧ b.memory.created_at ≤ a.memory.created_at)))))) := by
  simp only [rankLE, rankKey, decide_eq_true_eq, Prod.Lex.le_iff, neg_lt_neg_iff,
    neg_inj, neg_le_neg_iff]

/-- A first match sits at an index inside the list. -/
theorem firstMatch_index_lt (pred : SourcePreference → Bool)
    (l : List SourcePreference) (ip : Nat × SourcePreference)
    (h : firstMatch pred l = some ip) : ip.1 < l.length := by
  induction l generalizing ip with
  | nil => simp [firstMatch] at h
  | cons p ps ih =>
      rw [firstMatch] at h
      by_cases hp : pred p = true
      · rw [if_pos hp] at h
        injection h with h2
        rw [← h2]
        simp
      · rw [if_neg hp] at h
        cases hfm : firstMatch pred ps with
        | none => rw [hfm] at h; exact absurd h (by simp)
        | some ip0 =>
            rw [hfm] at h
            simp only [Option.map_some'] at h
            injection h with h2
            have := ih ip0 hfm
            rw [← h2]
            simp only [List.length_cons]
            omega

/-- A matched source's rank is a real index of the preference list. -/
theorem lookupSource_index_lt (prefs : List SourcePreference) (m : Memory)
    (i : Nat) (w : ℚ) (h : lookupSource prefs m = some (i, w)) : i < prefs.length := by
  unfold lookupSource at h
  cases h1 : firstMatch (fun p => p.npub == some m.source) prefs with
  | some ip =>
      rw [h1] at h
      injection h with h2
      have := firstMatch_index_lt _ _ _ h1
      rw [show i = ip.1 from congrArg Prod.fst h2.symm]
      exact this
  | none =>
      rw [h1] at h
      simp only at h
      cases hg : groupOfTier m.tier with
      | none => rw [hg] at h; simp only at h; exact absurd h (by simp)
      | some g =>
          rw [hg] at h
          simp only at h
          cases h2 : firstMatch (fun p => p.group == some g) prefs with
          | none => rw [h2] at h; exact absurd h (by simp)
          | some ip =>
              rw [h2] at h
              simp only [Option.map_some'] at h
              injection h with h3
              have := firstMatch_index_lt _ _ _ h2
              rw [show i = ip.1 from congrArg Prod.fst h3.symm]
              exact this

/-- Every tier defined by the table is bounded by the table maximum. -/
theorem mem_le_definedTiersMax (table : List (String × Nat)) (e : String × Nat)
    (he : e ∈ table) : e.2 ≤ definedTiersMax table := by
  induction table with
  | nil => exact absurd he (List.not_mem_nil e)
  | cons p ps ih =>
      rcases List.mem_cons.mp he with rfl | hmem
      · simp only [definedTiersMax, List.map_cons, List.foldr_cons]
        exact le_max_left _ _
      · refine le_trans (ih hmem) ?_
        simp only [definedTiersMax, List.map_cons, List.foldr_cons]
        exact le_max_right _ _

/-- C1: the list returned by rank_memories carries, for every result, an
effectiveScore equal to its relevance times its source's trustWeight
(together with the recomputed source rank and model tier); it is ordered by
effectiveScore descending with ties broken by sourceRank ascending, then
modelTier ascending, then createdAt descending; it is a permutation of the
rescored inputs; an unmatched source gets the unranked position after every
matched index, and an unmatched model gets the tier after every defined
tier; and the function is deterministic — identical inputs give the
identical ordered list, with no randomness and no hash-order dependence. -/
theorem rank_memories_spec (results : List SearchResult)
    (prefs : List SourcePreference) (table : List (String × Nat)) :
    (∀ r ∈ rank_memories results prefs table,
        r.effective_score = r.relevance * trustWeightOf prefs r.memory
      ∧ r.source_rank = sourceRankOf prefs r.memory
      ∧ r.model_tier = modelTierOf table r.memory.model)
  ∧ (rank_memories results prefs table).Pairwise (fun a b =>
        b.effective_score < a.effective_score
      ∨ (a.effective_score = b.effective_score
        ∧ (a.source_rank < b.source_rank
          ∨ (a.source_rank = b.source_rank
            ∧ (a.model_tier < b.model_tier
              ∨ (a.model_tier = b.model_tier
                ∧ b.memory.created_at ≤ a.memory.created_at))))))
  ∧ (rank_memories results prefs table).Perm (results.map (scoreResult prefs table))
  ∧ (∀ m, lookupSource prefs m = none → sourceRankOf prefs m = prefs.length)
  ∧ (∀ m i w, lookupSource prefs m = some (i, w) →
        sourceRankOf prefs m = i ∧ i < prefs.length)
  ∧ (∀ model, (table.find? fun e => patternMatches e.1 model) = none →
        ∀ e ∈ table, e.2 < modelTierOf table model)
  ∧ (∀ results2 prefs2 table2, results = results2 → prefs = prefs2 → table = table2 →
        rank_memories results prefs table = rank_memories results2 prefs2 table2) := by
  have hperm : (rank_memories results prefs table).Perm
      (results.map (scoreResult prefs table)) :=
    List.mergeSort_perm (results.map (scoreResult prefs table)) rankLE
  refine ⟨?_, ?_, hperm, ?_, ?_, ?_, ?_⟩
  · intro r hr
    have hr2 : r ∈ results.map (scoreResult prefs table) := hperm.mem_iff.mp hr
    obtain ⟨r0, _, hre⟩ := List.mem_map.mp hr2
    rw [← hre]
    exact ⟨rfl, rfl, rfl⟩
  · have hs := List.sorted_mergeSort rankLE_trans rankLE_total
      (results.map (scoreResult prefs table))
    exact hs.imp (fun hab => (rankLE_iff _ _).mp hab)
  · intro m hm
    unfold sourceRankOf
    rw [hm]
  · intro m i w hm
    refine ⟨?_, lookupSource_index_lt prefs m i w hm⟩
    unfold sourceRankOf
    rw [hm]
  · intro model hnone e he
    unfold modelTierOf
    rw [hnone]
    simp only
    have := mem_le_definedTiersMax table e he
    omega
  · intro results2 prefs2 table2 h1 h2 h3
    rw [h1, h2, h3]

/-! ## Conflict detection (C2) -/

/-- hasConflict holds exactly when two records of the group disagree: they
come from distinct sources and their normalized details differ. -/
theorem hasConflict_iff (normalize : String → String) (g : List Memory) :
    hasConflict normalize g = true ↔
      ∃ a ∈ g, ∃ b ∈ g, a.source ≠ b.source ∧ normalize a.detail ≠ normalize b.detail := by
  simp [hasConflict, List.any_eq_true, Bool.and_eq_true, bne_iff_ne]

/-- Membership in the detector output characterized: the groups returned are
exactly the topic groups of the input that contain a disagreement. -/
theorem mem_detect_conflicts (normalize : String → String) (ms : List Memory)
    (g : List Memory) :
    g ∈ detect_conflicts normalize ms ↔
      ∃ t, t ∈ ms.map (fun m => m.topic)
        ∧ hasConflict normalize (topicGroup ms t) = true
        ∧ g = topicGroup ms t := by
  simp only [detect_conflicts, List.mem_map, List.mem_filter, List.mem_dedup]
  constructor
  · rintro ⟨t, ⟨ht, hc⟩, heq⟩
    exact ⟨t, ht, hc, heq.symm⟩
  · rintro ⟨t, ht, hc, heq⟩
    exact ⟨t, ⟨ht, hc⟩, heq.symm⟩

/-- C2: a group is reported by detect_conflicts exactly when it is a topic
group of the input containing two records from distinct sources whose
normalized detail payloads differ; a topic group whose records all carry
identical normalized detail is never reported, regardless of how many
sources contributed to it. -/
theorem detect_conflicts_spec (normalize : String → String) (ms : List Memory) :
    (∀ g ∈ detect_conflicts normalize ms,
        (∃ t, t ∈ ms.map (fun m => m.topic) ∧ g = topicGroup ms t)
      ∧ ∃ a ∈ g, ∃ b ∈ g, a.source ≠ b.source ∧ normalize a.detail ≠ normalize b.detail)
  ∧ (∀ t ∈ ms.map (fun m => m.topic),
        (∃ a ∈ topicGroup ms t, ∃ b ∈ topicGroup ms t,
            a.source ≠ b.source ∧ normalize a.detail ≠ normalize b.detail) →
        topicGroup ms t ∈ detect_conflicts normalize ms)
  ∧ (∀ t, (∀ a ∈ topicGroup ms t, ∀ b ∈ topicGroup ms t,
        normalize a.detail = normalize b.detail) →
        topicGroup ms t ∉ detect_conflicts normalize ms) := by
  refine ⟨?_, ?_, ?_⟩
  · intro g hg
    obtain ⟨t, ht, hc, heq⟩ := (mem_detect_conflicts normalize ms g).mp hg
    refine ⟨⟨t, ht, heq⟩, ?_⟩
    rw [heq]
    exact (hasConflict_iff normalize _).mp hc
  · intro t ht hpair
    exact (mem_detect_conflicts normalize ms _).mpr
      ⟨t, ht, (hasConflict_iff normalize _).mpr hpair, rfl⟩
  · intro t hall hmem
    obtain ⟨t2, _, hc, heq⟩ := (mem_detect_conflicts normalize ms _).mp hmem
    obtain ⟨a, ha, b, hb, _, hd⟩ := (hasConflict_iff normalize _).mp hc
    rw [← heq] at ha hb
    exact hd (hall a ha b hb)

end Snow
